import Mathlib

/-!
Verification of the inverted-index search utilities in
`src/buscador_utiles.py`.

Characters are modelled as Unicode code points (`Nat`), a string as a list
of code points (`Palabra`), Python's `set[str]` as `Finset Palabra`, and the
index dictionary `dict[str, set[str]]` as an association list that keeps the
key insertion order, as a Python `dict` does.  New keys are appended at the
end; a value update rewrites the stored set in place.

Python's Unicode-aware `str.lower` and `str.isalpha` are modelled on the
Basic Latin and Latin-1 Supplement blocks, the alphabet the repository's
Spanish data uses.  The possible `IndexError` in `buscar_palabra_simple`
(indexing `[0]` into an empty list) is modelled by an `Option` result:
`none` is the raised exception.  Functions that in Python mutate the index
argument or read it return the final state of that argument explicitly, so
that frame properties can be stated.
-/

/-- A Python string: the list of code points (`Nat`) of its characters. -/
abbrev Palabra := List Nat

/-- Code points of a Lean string literal, used for concrete examples. -/
def cadena (s : String) : Palabra := s.data.map Char.toNat

/-- Python `str.lower`, restricted to Basic Latin and Latin-1 Supplement
letters: `A`-`Z` and `À`-`Þ` (except the multiplication sign `×`, 215) move
down 32 code points; everything else is unchanged. -/
def pyToLower (n : Nat) : Nat :=
  if (65 ≤ n ∧ n ≤ 90) ∨ (192 ≤ n ∧ n ≤ 222 ∧ n ≠ 215) then n + 32 else n

/-- Python `str.isalpha` on one character, restricted to Basic Latin and
Latin-1 Supplement letters (excluding `×` 215 and `÷` 247). -/
def pyIsAlphaChar (n : Nat) : Bool :=
  (97 ≤ n && n ≤ 122) || (65 ≤ n && n ≤ 90) ||
    (192 ≤ n && n ≤ 255 && n != 215 && n != 247)

/-- The separators of Python `str.split()` with no argument (ASCII
whitespace). -/
def pyIsSpace (n : Nat) : Bool :=
  n == 32 || n == 9 || n == 10 || n == 11 || n == 12 || n == 13

/-- Python `str.isalpha` on a whole word; the empty string is not
alphabetic. -/
def pyIsAlpha (w : Palabra) : Bool := !w.isEmpty && w.all pyIsAlphaChar

/-- `STOP_WORDS` from the source (a `set` in Python; the claims only test
membership, so a list is an adequate model). -/
def STOP_WORDS : List Palabra :=
  ["de", "la", "que", "el", "en", "y", "a", "los", "del", "se", "las",
   "por", "un", "para", "con", "no", "una", "su", "al", "lo", "como",
   "más", "pero", "sus", "le", "ya", "o"].map cadena

/-- `PUNTUACION` from the source; code points 39 and 96 are the apostrophe
and the backtick. -/
def PUNTUACION : Palabra :=
  cadena "!¡\"#$%&" ++ [39] ++ cadena "()*+,-./:;<=>?¿@[\\]^_" ++ [96] ++
    cadena "\x7b|\x7d~"

/-- `texto.replace(i, " ")` for one character `i`. -/
def replaceChar (l : Palabra) (i : Nat) : Palabra :=
  l.map (fun c => if c = i then 32 else c)

/-- Helper for `str.split()`: walks the text accumulating the current word
(reversed) and emits it at each whitespace run or at the end. -/
def wordsAux : Palabra → Palabra → List Palabra
  | [], acc => if acc.isEmpty then [] else [acc.reverse]
  | c :: cs, acc =>
    if pyIsSpace c then
      if acc.isEmpty then wordsAux cs [] else acc.reverse :: wordsAux cs []
    else wordsAux cs (c :: acc)

/-- Python `str.split()` with no argument: split on whitespace runs,
discarding empty fragments. -/
def pySplit (l : Palabra) : List Palabra := wordsAux l []

/-- `normalizar_texto`: lowercase, replace every punctuation character by a
space, split on whitespace, keep the words that are not stop words and are
alphabetic. -/
def normalizar_texto (texto : Palabra) : List Palabra :=
  let minusculas := texto.map pyToLower
  let limpio := PUNTUACION.foldl replaceChar minusculas
  let palabras := pySplit limpio
  palabras.filter (fun p => !STOP_WORDS.contains p && pyIsAlpha p)

/-- The index: `dict[str, set[str]]` as an association list in key
insertion order. -/
abbrev Indice := List (Palabra × Finset Palabra)

/-- Dictionary lookup `indice[p]` (first matching key). -/
def busca : Indice → Palabra → Option (Finset Palabra)
  | [], _ => none
  | kv :: rest, p => if kv.1 = p then some kv.2 else busca rest p

/-- Python `p in indice`. -/
def tieneClave (indice : Indice) (p : Palabra) : Bool := (busca indice p).isSome

/-- `indice[p].add(url)`: insert `url` into the set stored under key `p`. -/
def agregaUrl (indice : Indice) (p url : Palabra) : Indice :=
  indice.map (fun kv => if kv.1 = p then (kv.1, insert url kv.2) else kv)

/-- One iteration of the indexing loop:
`if p not in indice: indice[p] = set()` (a new key is appended at the end of
the dict) followed by `indice[p].add(url)`. -/
def procesaPaso (url : Palabra) (indice : Indice) (p : Palabra) : Indice :=
  agregaUrl (if tieneClave indice p then indice else indice ++ [(p, ∅)]) p url

/-- `procesar_url_en_indice`: add `url` to the posting set of every token of
the normalized text.  The Python function mutates `indice` and returns
`None`; here the final state of `indice` is returned. -/
def procesar_url_en_indice (url texto : Palabra) (indice : Indice) : Indice :=
  (normalizar_texto texto).foldl (procesaPaso url) indice

/-- The keys of `Counter(palabras)`: the distinct words in order of first
appearance (a Python dict preserves insertion order). -/
def claves : List Palabra → List Palabra
  | [] => []
  | p :: rest => p :: (claves rest).filter (fun q => q ≠ p)

/-- Stable insertion by weakly descending count: the inserted word goes in
front of the first word whose count is not larger.  Together with
`ordenaDesc` this is the stable descending sort performed by
`Counter.most_common` (via `heapq.nlargest` / `sorted` with `reverse=True`,
both stable). -/
def insertaDesc (cnt : Palabra → Nat) (p : Palabra) : List Palabra → List Palabra
  | [] => [p]
  | q :: qs => if cnt q ≤ cnt p then p :: q :: qs else q :: insertaDesc cnt p qs

/-- Stable insertion sort by weakly descending count. -/
def ordenaDesc (cnt : Palabra → Nat) : List Palabra → List Palabra
  | [] => []
  | p :: rest => insertaDesc cnt p (ordenaDesc cnt rest)

/-- `Counter(palabras).most_common(n)`, keeping only the words (the source
reads `tupla[0]` from each pair).  Items are ordered by descending count,
ties in the counter's insertion order (first appearance); for `n ≤ 0`
nothing is returned, as with `heapq.nlargest`. -/
def most_common (palabras : List Palabra) (n : Int) : List Palabra :=
  (ordenaDesc (fun p => palabras.count p) (claves palabras)).take n.toNat

/-- `procesar_url_en_indice_top_n`: like `procesar_url_en_indice` but only
for the up-to-`top_n` most frequent tokens of the text.  (The Python
parameter defaults to 1000; the claims always pass it explicitly.) -/
def procesar_url_en_indice_top_n (url texto : Palabra) (indice : Indice)
    (top_n : Int) : Indice :=
  (most_common (normalizar_texto texto) top_n).foldl (procesaPaso url) indice

/-- `buscar_palabra_simple`.  The source evaluates
`normalizar_texto(palabra)[0]`, which raises `IndexError` when the
normalization is empty: that exception is the `none` result.  The second
component is the final state of the `indice` argument. -/
def buscar_palabra_simple (palabra : Palabra) (indice : Indice) :
    Option (Finset Palabra) × Indice :=
  match normalizar_texto palabra with
  | [] => (none, indice)
  | w :: _ =>
    match busca indice w with
    | none => (some ∅, indice)
    | some s => (some s, indice)

/-- The loop of `buscar_palabras_or`: `res.update(buscar_palabra_simple(p))`
for each word, threading the index state through each call; a raised
exception (`none`) propagates. -/
def bucleOr (res : Finset Palabra) (indice : Indice) :
    List Palabra → Option (Finset Palabra) × Indice
  | [] => (some res, indice)
  | p :: rest =>
    match buscar_palabra_simple p indice with
    | (none, ind2) => (none, ind2)
    | (some s, ind2) => bucleOr (res ∪ s) ind2 rest

/-- `buscar_palabras_or`: union of the simple lookups of every token of the
phrase. -/
def buscar_palabras_or (frase : Palabra) (indice : Indice) :
    Option (Finset Palabra) × Indice :=
  bucleOr ∅ indice (normalizar_texto frase)

/-- The loop of `buscar_palabras_and` over `lista[1:]`: intersect with each
lookup and break (returning the empty running result) as soon as the
intersection is empty. -/
def bucleAnd (resultado : Finset Palabra) (indice : Indice) :
    List Palabra → Option (Finset Palabra) × Indice
  | [] => (some resultado, indice)
  | p :: rest =>
    match buscar_palabra_simple p indice with
    | (none, ind2) => (none, ind2)
    | (some urls, ind2) =>
      if resultado ∩ urls = ∅ then (some (resultado ∩ urls), ind2)
      else bucleAnd (resultado ∩ urls) ind2 rest

/-- `buscar_palabras_and`: empty set for an empty token list, otherwise the
intersection of the lookups, with the early break of the source. -/
def buscar_palabras_and (frase : Palabra) (indice : Indice) :
    Option (Finset Palabra) × Indice :=
  match normalizar_texto frase with
  | [] => (some ∅, indice)
  | w :: rest =>
    match buscar_palabra_simple w indice with
    | (none, ind2) => (none, ind2)
    | (some r0, ind2) => bucleAnd r0 ind2 rest

/-- `calcula_estadisticas_indice`: number of keys, number of distinct URLs
across all posting sets, and average postings per key (0 when there are no
keys).  Python's float division is modelled by `ℚ`. -/
def calcula_estadisticas_indice (indice : Indice) : Nat × Nat × ℚ :=
  let num_palabras : Nat := indice.length
  let urls_unicas : Finset Palabra :=
    indice.foldl (fun acc kv => acc ∪ kv.2) (∅ : Finset Palabra)
  let total_urls : Nat := (indice.map (fun kv => kv.2.card)).sum
  (num_palabras, urls_unicas.card,
    if 0 < num_palabras then (total_urls : ℚ) / (num_palabras : ℚ) else 0)

/-- `url` is recorded for token `t`: the index has an entry for `t` whose
posting set contains `url`. -/
def urlEnIndice (indice : Indice) (t url : Palabra) : Prop :=
  ∃ s, busca indice t = some s ∧ url ∈ s

/-- A well-formed token: nonempty, lowercase (fixed by `pyToLower`),
entirely alphabetic, and not a stop word. -/
def esToken (t : Palabra) : Prop :=
  t.map pyToLower = t ∧ t ≠ [] ∧ (∀ c ∈ t, pyIsAlphaChar c = true) ∧
    t ∉ STOP_WORDS

/-- Strict priority order used by a stable descending sort by count: `u`
comes before `t` when its count is larger, or the counts are equal and `u`
ranks earlier in the order `idx`. -/
abbrev prec (cnt : Palabra → Nat) (idx : Palabra → Nat) (u t : Palabra) : Prop :=
  cnt t < cnt u ∨ (cnt u = cnt t ∧ idx u < idx t)

/-- Position of the first occurrence of `t` in a list (Python
`list.index`); 0 for an absent word, which the claims never rely on. -/
def indiceDe : List Palabra → Palabra → Nat
  | [], _ => 0
  | p :: rest, t => if p = t then 0 else indiceDe rest t + 1

/-- The spec's selection priority for `indexDocumentTopN`: more frequent
tokens first, ties broken by order of first appearance in the normalized
sequence (`indiceDe` is the position of the first occurrence). -/
abbrev precedeEn (palabras : List Palabra) (u t : Palabra) : Prop :=
  prec (fun p => palabras.count p) (fun p => indiceDe palabras p) u t

/-- Boolean form of `precedeEn`, used for counting. -/
def precedeB (palabras : List Palabra) (u t : Palabra) : Bool :=
  Nat.blt (palabras.count t) (palabras.count u) ||
    (palabras.count u == palabras.count t &&
      Nat.blt (indiceDe palabras u) (indiceDe palabras t))

/-- Number of distinct tokens of `palabras` that outrank `t` in the spec's
selection priority. -/
def rango (palabras : List Palabra) (t : Palabra) : Nat :=
  (claves palabras).countP (fun u => precedeB palabras u t)

/-- The spec's selection criterion: `t` is among the up-to-`n` most
frequent distinct tokens, ties by first appearance — that is, fewer than
`n` distinct tokens outrank it. -/
def seleccionada (palabras : List Palabra) (n : Int) (t : Palabra) : Prop :=
  t ∈ palabras ∧ rango palabras t < n.toNat

/-- Python dictionary equality (`==`): the same keys bound to the same
values; key insertion order is not observable through `==`. -/
def indiceEquivalente (a b : Indice) : Prop := ∀ t, busca a t = busca b t

/-- State of a key after the indexing loop has processed the word `p`:
the key exists and every entry for it contains `url`. -/
def despuesDe (indice : Indice) (p url : Palabra) : Prop :=
  tieneClave indice p = true ∧ ∀ kv ∈ indice, kv.1 = p → url ∈ kv.2

/-- The index invariant of the spec: every stored posting set is nonempty
(an empty set is never left behind a key) and lists each identifier at
most once. -/
def invarianteIndice (indice : Indice) : Prop :=
  ∀ kv ∈ indice, kv.2.Nonempty ∧ kv.2.val.Nodup

/-- Indexes reachable from the empty dictionary by the two indexing
operations. -/
inductive Alcanzable : Indice → Prop
  | vacio : Alcanzable []
  | paso (url texto : Palabra) (indice : Indice) :
      Alcanzable indice → Alcanzable (procesar_url_en_indice url texto indice)
  | pasoTopN (url texto : Palabra) (indice : Indice) (top_n : Int) :
      Alcanzable indice →
        Alcanzable (procesar_url_en_indice_top_n url texto indice top_n)

/-- The end-to-end example index of the spec: two documents indexed in
order. -/
def indiceEjemplo : Indice :=
  procesar_url_en_indice (cadena "url2") (cadena "el perro come carne")
    (procesar_url_en_indice (cadena "url1") (cadena "el gato come pescado") [])

/-! ### Character-level facts -/

theorem pyToLower_idem (n : Nat) :
    pyToLower (pyToLower n) = pyToLower n := by
  by_cases h : (65 ≤ n ∧ n ≤ 90) ∨ (192 ≤ n ∧ n ≤ 222 ∧ n ≠ 215)
  · have h1 : pyToLower n = n + 32 := by rw [pyToLower, if_pos h]
    rw [h1, pyToLower, if_neg (by omega)]
  · have h1 : pyToLower n = n := by rw [pyToLower, if_neg h]
    rw [h1]
    exact h1

theorem pyToLower_space : pyToLower 32 = 32 := by decide

theorem alphaChar_not_space {n : Nat} (h : pyIsAlphaChar n = true) :
    pyIsSpace n = false := by
  simp only [pyIsAlphaChar, Bool.or_eq_true, Bool.and_eq_true,
    decide_eq_true_eq, bne_iff_ne, ne_eq] at h
  simp only [pyIsSpace, Bool.or_eq_false_iff, beq_eq_false_iff_ne, ne_eq]
  omega

theorem PUNTUACION_eq :
    PUNTUACION = [33, 161, 34, 35, 36, 37, 38, 39, 40, 41, 42, 43, 44, 45,
      46, 47, 58, 59, 60, 61, 62, 63, 191, 64, 91, 92, 93, 94, 95, 96, 123,
      124, 125, 126] := by decide

theorem alphaChar_not_punct {n : Nat} (h : pyIsAlphaChar n = true) :
    n ∉ PUNTUACION := by
  intro hmem
  rw [PUNTUACION_eq] at hmem
  simp only [pyIsAlphaChar, Bool.or_eq_true, Bool.and_eq_true,
    decide_eq_true_eq, bne_iff_ne, ne_eq] at h
  simp only [List.mem_cons, List.not_mem_nil, or_false] at hmem
  omega

/-! ### Splitting -/

theorem mem_wordsAux_chars :
    ∀ (l acc : Palabra) (w : Palabra), w ∈ wordsAux l acc →
      ∀ c ∈ w, c ∈ l ∨ c ∈ acc := by
  intro l
  induction l with
  | nil =>
    intro acc w hw c hc
    unfold wordsAux at hw
    split at hw
    · simp at hw
    · simp only [List.mem_singleton] at hw
      subst hw
      exact Or.inr (List.mem_reverse.mp hc)
  | cons c0 cs ih =>
    intro acc w hw c hc
    unfold wordsAux at hw
    split at hw
    · split at hw
      · rcases ih [] w hw c hc with h | h
        · exact Or.inl (List.mem_cons_of_mem _ h)
        · simp at h
      · rcases List.mem_cons.mp hw with h | h
        · subst h
          exact Or.inr (List.mem_reverse.mp hc)
        · rcases ih [] w h c hc with h2 | h2
          · exact Or.inl (List.mem_cons_of_mem _ h2)
          · simp at h2
    · rcases ih (c0 :: acc) w hw c hc with h | h
      · exact Or.inl (List.mem_cons_of_mem _ h)
      · rcases List.mem_cons.mp h with h2 | h2
        · exact Or.inl (h2 ▸ List.mem_cons_self _ _)
        · exact Or.inr h2

theorem wordsAux_no_space (l : Palabra) :
    ∀ acc : Palabra, acc ≠ [] → (∀ c ∈ l, pyIsSpace c = false) →
      wordsAux l acc = [acc.reverse ++ l] := by
  induction l with
  | nil =>
    intro acc hacc _
    unfold wordsAux
    rw [if_neg (by simpa [List.isEmpty_iff] using hacc)]
    simp
  | cons c0 cs ih =>
    intro acc hacc hl
    unfold wordsAux
    rw [if_neg (by simp [hl c0 (List.mem_cons_self _ _)])]
    rw [ih (c0 :: acc) (by simp) (fun c hc => hl c (List.mem_cons_of_mem _ hc))]
    simp

theorem pySplit_single {w : Palabra} (hw : w ≠ [])
    (hns : ∀ c ∈ w, pyIsSpace c = false) : pySplit w = [w] := by
  unfold pySplit
  match w, hw with
  | c :: cs, _ =>
    unfold wordsAux
    rw [if_neg (by simp [hns c (List.mem_cons_self _ _)])]
    rw [wordsAux_no_space cs [c] (by simp)
      (fun d hd => hns d (List.mem_cons_of_mem _ hd))]
    simp

/-! ### Replacement of punctuation -/

theorem mem_foldl_replaceChar :
    ∀ (ps : Palabra) (l : Palabra) (c : Nat),
      c ∈ ps.foldl replaceChar l → c = 32 ∨ c ∈ l := by
  intro ps
  induction ps with
  | nil => intro l c hc; exact Or.inr hc
  | cons i is ih =>
    intro l c hc
    rcases ih (replaceChar l i) c hc with h | h
    · exact Or.inl h
    · rcases List.mem_map.mp h with ⟨c0, hc0, hc0eq⟩
      by_cases hci : c0 = i
      · subst hci; simp at hc0eq; exact Or.inl hc0eq.symm
      · simp [hci] at hc0eq; subst hc0eq; exact Or.inr hc0

theorem foldl_replaceChar_eq_self :
    ∀ (ps : Palabra) (l : Palabra), (∀ c ∈ l, c ∉ ps) →
      ps.foldl replaceChar l = l := by
  intro ps
  induction ps with
  | nil => intro l _; rfl
  | cons i is ih =>
    intro l hl
    have hrep : replaceChar l i = l := by
      unfold replaceChar
      have hmap : l.map (fun c => if c = i then 32 else c) = l.map id :=
        List.map_congr_left (fun c hc => by
          rw [if_neg (fun h : c = i => hl c hc (h ▸ List.mem_cons_self _ _))]
          rfl)
      rw [hmap, List.map_id]
    rw [List.foldl_cons, hrep]
    exact ih l (fun c hc hmem => hl c hc (List.mem_cons_of_mem _ hmem))

/-! ### Tokens produced by the normalizer -/

theorem normalizar_esToken (texto : Palabra) :
    ∀ t ∈ normalizar_texto texto, esToken t := by
  intro t ht
  simp only [normalizar_texto] at ht
  rcases List.mem_filter.mp ht with ⟨hsplit, hcond⟩
  rw [Bool.and_eq_true, Bool.not_eq_true'] at hcond
  obtain ⟨hstop, halphaw⟩ := hcond
  rw [pyIsAlpha, Bool.and_eq_true, Bool.not_eq_true'] at halphaw
  obtain ⟨hempty, hall⟩ := halphaw
  have hne : t ≠ [] := by
    intro h; subst h; simp at hempty
  have halpha : ∀ c ∈ t, pyIsAlphaChar c = true := List.all_eq_true.mp hall
  have hnostop : t ∉ STOP_WORDS := fun hmem => by
    rw [Bool.eq_false_iff] at hstop
    exact hstop (List.elem_iff.mpr hmem)
  have hlower : ∀ c ∈ t, pyToLower c = c := by
    intro c hc
    have hlim : c ∈ PUNTUACION.foldl replaceChar (texto.map pyToLower) := by
      rcases mem_wordsAux_chars _ [] t hsplit c hc with h | h
      · exact h
      · simp at h
    rcases mem_foldl_replaceChar _ _ _ hlim with h | h
    · exact h ▸ pyToLower_space
    · rcases List.mem_map.mp h with ⟨c0, _, hc0⟩
      exact hc0 ▸ pyToLower_idem c0
  refine ⟨?_, hne, halpha, hnostop⟩
  have : t.map pyToLower = t.map id := List.map_congr_left hlower
  rw [this, List.map_id]

theorem normalizar_texto_token {t : Palabra} (h : esToken t) :
    normalizar_texto t = [t] := by
  obtain ⟨hlow, hne, halpha, hstop⟩ := h
  simp only [normalizar_texto]
  rw [hlow,
    foldl_replaceChar_eq_self _ _ (fun c hc => alphaChar_not_punct (halpha c hc)),
    pySplit_single hne (fun c hc => alphaChar_not_space (halpha c hc))]
  have hcont : STOP_WORDS.contains t = false :=
    Bool.eq_false_iff.mpr (fun habs => hstop (List.elem_iff.mp habs))
  have hie : t.isEmpty = false := by
    cases t with
    | nil => exact absurd rfl hne
    | cons c cs => rfl
  have hall : t.all pyIsAlphaChar = true := List.all_eq_true.mpr halpha
  simp [List.filter, hcont, pyIsAlpha, hie, hall, hstop]

theorem buscar_simple_token {t : Palabra} (h : esToken t) (indice : Indice) :
    buscar_palabra_simple t indice = (some ((busca indice t).getD ∅), indice) := by
  unfold buscar_palabra_simple
  rw [normalizar_texto_token h]
  cases hb : busca indice t <;> simp [hb]

/-! ### Lookup after updates -/

theorem busca_agregaUrl (indice : Indice) (p url t : Palabra) :
    busca (agregaUrl indice p url) t =
      if t = p then (busca indice t).map (insert url) else busca indice t := by
  induction indice with
  | nil => by_cases h : t = p <;> simp [agregaUrl, busca, h]
  | cons kv rest ih =>
    rcases kv with ⟨k, s⟩
    by_cases hkp : k = p
    · subst hkp
      by_cases htk : t = k
      · subst htk
        simp [agregaUrl, busca]
      · have hkt : ¬k = t := fun h => htk h.symm
        simp only [agregaUrl] at ih ⊢
        simp [busca, hkt, htk, ih]
    · by_cases htk : t = k
      · subst htk
        simp [agregaUrl, busca, hkp]
      · have hkt : ¬k = t := fun h => htk h.symm
        simp only [agregaUrl] at ih ⊢
        simp [busca, hkp, hkt, ih]

theorem busca_append (a b : Indice) (t : Palabra) :
    busca (a ++ b) t = (busca a t).or (busca b t) := by
  induction a with
  | nil => simp [busca]
  | cons kv rest ih => by_cases h : kv.1 = t <;> simp [busca, h, ih]

theorem tieneClave_busca_none {indice : Indice} {p : Palabra}
    (hk : tieneClave indice p = false) : busca indice p = none := by
  rw [tieneClave] at hk
  exact Option.not_isSome_iff_eq_none.mp (by simp [hk])

theorem busca_procesaPaso (url : Palabra) (indice : Indice) (p t : Palabra) :
    busca (procesaPaso url indice p) t =
      if t = p then some (insert url ((busca indice t).getD ∅))
      else busca indice t := by
  unfold procesaPaso
  by_cases hk : tieneClave indice p = true
  · rw [if_pos hk, busca_agregaUrl]
    by_cases htp : t = p
    · subst htp
      rcases Option.isSome_iff_exists.mp (by rw [tieneClave] at hk; exact hk)
        with ⟨s, hs⟩
      rw [if_pos rfl, if_pos rfl, hs]
      rfl
    · rw [if_neg htp, if_neg htp]
  · rw [if_neg hk, busca_agregaUrl]
    have hnone : busca indice p = none :=
      tieneClave_busca_none (Bool.not_eq_true _ ▸ hk)
    by_cases htp : t = p
    · subst htp
      rw [if_pos rfl, if_pos rfl, busca_append, hnone]
      simp [busca]
    · rw [if_neg htp, if_neg htp, busca_append]
      have hpt : ¬p = t := fun h => htp h.symm
      have h1 : busca [(p, (∅ : Finset Palabra))] t = none := by
        simp [busca, hpt]
      rw [h1, Option.or_none]

theorem busca_foldl (url : Palabra) :
    ∀ (l : List Palabra) (indice : Indice) (t : Palabra),
      busca (l.foldl (procesaPaso url) indice) t =
        if t ∈ l then some (insert url ((busca indice t).getD ∅))
        else busca indice t := by
  intro l
  induction l with
  | nil => intro indice t; simp
  | cons p rest ih =>
    intro indice t
    rw [List.foldl_cons, ih]
    by_cases hmem : t ∈ rest
    · rw [if_pos hmem, if_pos (List.mem_cons_of_mem _ hmem), busca_procesaPaso]
      by_cases htp : t = p
      · rw [if_pos htp]
        simp [Finset.insert_idem]
      · rw [if_neg htp]
    · by_cases htp : t = p
      · rw [if_neg hmem, if_pos (by simp [htp]), busca_procesaPaso, if_pos htp]
      · rw [if_neg hmem, if_neg (by simp [htp, hmem]), busca_procesaPaso,
          if_neg htp]

/-! ### Idempotence of one indexing step -/

theorem mem_ensured {indice : Indice} {p : Palabra}
    {kv0 : Palabra × Finset Palabra}
    (hkv0 : kv0 ∈ (if tieneClave indice p then indice else indice ++ [(p, ∅)]))
    (h0 : ¬kv0.1 = p) : kv0 ∈ indice := by
  by_cases htc : tieneClave indice p = true
  · rw [if_pos htc] at hkv0
    exact hkv0
  · rw [if_neg htc] at hkv0
    rcases List.mem_append.mp hkv0 with h1 | h1
    · exact h1
    · have heq := List.mem_singleton.mp h1
      exact absurd (by rw [heq]) h0

theorem procesaPaso_id {indice : Indice} {p url : Palabra}
    (h : despuesDe indice p url) : procesaPaso url indice p = indice := by
  obtain ⟨hk, hall⟩ := h
  unfold procesaPaso
  rw [if_pos hk]
  unfold agregaUrl
  have hmap :
      indice.map (fun kv => if kv.1 = p then (kv.1, insert url kv.2) else kv) =
        indice.map id := by
    refine List.map_congr_left (fun kv hkv => ?_)
    by_cases hkp : kv.1 = p
    · rw [if_pos hkp, Finset.insert_eq_self.mpr (hall kv hkv hkp)]
      rfl
    · rw [if_neg hkp]
      rfl
  rw [hmap, List.map_id]

theorem despuesDe_procesaPaso_self (url : Palabra) (indice : Indice)
    (p : Palabra) : despuesDe (procesaPaso url indice p) p url := by
  constructor
  · rw [tieneClave, busca_procesaPaso, if_pos rfl]
    rfl
  · intro kv hkv hk1
    unfold procesaPaso agregaUrl at hkv
    rcases List.mem_map.mp hkv with ⟨kv0, hkv0, hmap⟩
    by_cases h0 : kv0.1 = p
    · rw [if_pos h0] at hmap
      rw [← hmap]
      exact Finset.mem_insert_self url kv0.2
    · rw [if_neg h0] at hmap
      subst hmap
      exact absurd hk1 h0

theorem despuesDe_procesaPaso_mono {indice : Indice} {q url : Palabra}
    (h : despuesDe indice q url) (p : Palabra) :
    despuesDe (procesaPaso url indice p) q url := by
  obtain ⟨hk, hall⟩ := h
  constructor
  · rw [tieneClave, busca_procesaPaso]
    by_cases hqp : q = p
    · rw [if_pos hqp]
      rfl
    · rw [if_neg hqp]
      exact hk
  · intro kv hkv hk1
    unfold procesaPaso agregaUrl at hkv
    rcases List.mem_map.mp hkv with ⟨kv0, hkv0, hmap⟩
    by_cases h0 : kv0.1 = p
    · rw [if_pos h0] at hmap
      rw [← hmap]
      exact Finset.mem_insert_self url kv0.2
    · rw [if_neg h0] at hmap
      subst hmap
      exact hall kv0 (mem_ensured hkv0 h0) hk1

theorem despuesDe_foldl (url : Palabra) :
    ∀ (l : List Palabra) (indice : Indice) (p : Palabra),
      p ∈ l ∨ despuesDe indice p url →
        despuesDe (l.foldl (procesaPaso url) indice) p url := by
  intro l
  induction l with
  | nil =>
    intro indice p h
    rcases h with h | h
    · simp at h
    · simpa using h
  | cons q rest ih =>
    intro indice p h
    rw [List.foldl_cons]
    rcases h with h | h
    · rcases List.mem_cons.mp h with h1 | h1
      · subst h1
        exact ih _ _ (Or.inr (despuesDe_procesaPaso_self url indice p))
      · exact ih _ _ (Or.inl h1)
    · exact ih _ _ (Or.inr (despuesDe_procesaPaso_mono h q))

theorem foldl_procesaPaso_id (url : Palabra) :
    ∀ (l : List Palabra) (indice : Indice),
      (∀ p ∈ l, despuesDe indice p url) →
        l.foldl (procesaPaso url) indice = indice := by
  intro l
  induction l with
  | nil => intro indice _; rfl
  | cons q rest ih =>
    intro indice h
    rw [List.foldl_cons, procesaPaso_id (h q (List.mem_cons_self _ _))]
    exact ih _ (fun p hp => h p (List.mem_cons_of_mem _ hp))

/-! ### Preservation of the index invariant -/

theorem invariante_procesaPaso {indice : Indice} (url p : Palabra)
    (h : invarianteIndice indice) :
    invarianteIndice (procesaPaso url indice p) := by
  intro kv hkv
  unfold procesaPaso agregaUrl at hkv
  rcases List.mem_map.mp hkv with ⟨kv0, hkv0, hmap⟩
  by_cases h0 : kv0.1 = p
  · rw [if_pos h0] at hmap
    rw [← hmap]
    exact ⟨Finset.insert_nonempty _ _, (insert url kv0.2).nodup⟩
  · rw [if_neg h0] at hmap
    subst hmap
    exact h kv0 (mem_ensured hkv0 h0)

theorem invariante_foldl (url : Palabra) :
    ∀ (l : List Palabra) (indice : Indice), invarianteIndice indice →
      invarianteIndice (l.foldl (procesaPaso url) indice) := by
  intro l
  induction l with
  | nil => intro indice h; exact h
  | cons q rest ih =>
    intro indice h
    rw [List.foldl_cons]
    exact ih _ (invariante_procesaPaso url q h)

/-! ### Query loops -/

theorem bucleOr_eq (indice : Indice) :
    ∀ l : List Palabra, (∀ p ∈ l, esToken p) → ∀ res : Finset Palabra,
      bucleOr res indice l =
        (some (l.foldl (fun a p => a ∪ (busca indice p).getD ∅) res), indice) := by
  intro l
  induction l with
  | nil => intro _ res; rfl
  | cons p rest ih =>
    intro h res
    simp only [bucleOr, buscar_simple_token (h p (List.mem_cons_self _ _)) indice,
      List.foldl_cons]
    exact ih (fun q hq => h q (List.mem_cons_of_mem _ hq)) _

theorem subset_foldl_union (f : Palabra → Finset Palabra) :
    ∀ (l : List Palabra) (res : Finset Palabra),
      res ⊆ l.foldl (fun a p => a ∪ f p) res := by
  intro l
  induction l with
  | nil => intro res; exact subset_rfl
  | cons p rest ih =>
    intro res
    rw [List.foldl_cons]
    exact subset_trans Finset.subset_union_left (ih _)

theorem bucleAnd_some (indice : Indice) :
    ∀ l : List Palabra, (∀ p ∈ l, esToken p) → ∀ r : Finset Palabra,
      ∃ s, bucleAnd r indice l = (some s, indice) ∧ s ⊆ r := by
  intro l
  induction l with
  | nil => intro _ r; exact ⟨r, rfl, subset_rfl⟩
  | cons p rest ih =>
    intro h r
    simp only [bucleAnd, buscar_simple_token (h p (List.mem_cons_self _ _)) indice]
    by_cases hemp : r ∩ (busca indice p).getD ∅ = ∅
    · exact ⟨r ∩ (busca indice p).getD ∅, by rw [if_pos hemp],
        Finset.inter_subset_left⟩
    · rcases ih (fun q hq => h q (List.mem_cons_of_mem _ hq))
        (r ∩ (busca indice p).getD ∅) with ⟨s, hseq, hsub⟩
      exact ⟨s, by rw [if_neg hemp, hseq],
        subset_trans hsub Finset.inter_subset_left⟩

/-! ### The queries do not change the index -/

theorem buscar_palabra_simple_snd (palabra : Palabra) (indice : Indice) :
    (buscar_palabra_simple palabra indice).2 = indice := by
  rcases h : normalizar_texto palabra with _ | ⟨w, ws⟩
  · simp [buscar_palabra_simple, h]
  · rcases hb : busca indice w with _ | s <;>
      simp [buscar_palabra_simple, h, hb]

theorem bucleOr_snd :
    ∀ (l : List Palabra) (res : Finset Palabra) (indice : Indice),
      (bucleOr res indice l).2 = indice := by
  intro l
  induction l with
  | nil => intro res indice; rfl
  | cons p rest ih =>
    intro res indice
    have hsnd := buscar_palabra_simple_snd p indice
    rcases hps : buscar_palabra_simple p indice with ⟨o, ind2⟩
    rw [hps] at hsnd
    cases o with
    | none => simp only [bucleOr, hps]; exact hsnd
    | some s => simp only [bucleOr, hps]; rw [ih]; exact hsnd

theorem bucleAnd_snd :
    ∀ (l : List Palabra) (r : Finset Palabra) (indice : Indice),
      (bucleAnd r indice l).2 = indice := by
  intro l
  induction l with
  | nil => intro r indice; rfl
  | cons p rest ih =>
    intro r indice
    have hsnd := buscar_palabra_simple_snd p indice
    rcases hps : buscar_palabra_simple p indice with ⟨o, ind2⟩
    rw [hps] at hsnd
    cases o with
    | none => simp only [bucleAnd, hps]; exact hsnd
    | some s =>
      simp only [bucleAnd, hps]
      by_cases hemp : r ∩ s = ∅
      · rw [if_pos hemp]
        exact hsnd
      · rw [if_neg hemp, ih]
        exact hsnd

/-! ### The stable descending sort of `most_common` -/

theorem precedeB_iff (palabras : List Palabra) (u t : Palabra) :
    precedeB palabras u t = true ↔ precedeEn palabras u t := by
  simp [precedeB, precedeEn, prec, Nat.blt_eq]

theorem precedeB_asymm (palabras : List Palabra) {a b : Palabra}
    (h : precedeB palabras a b = true) : precedeB palabras b a = false := by
  rw [precedeB_iff] at h
  rw [Bool.eq_false_iff]
  intro h2
  rw [precedeB_iff] at h2
  rcases h with h | ⟨h1a, h1b⟩ <;> rcases h2 with h2 | ⟨h2a, h2b⟩ <;> omega

theorem claves_nodup : ∀ l : List Palabra, (claves l).Nodup := by
  intro l
  induction l with
  | nil => exact List.nodup_nil
  | cons p rest ih =>
    simp only [claves]
    rw [List.nodup_cons]
    refine ⟨fun hmem => ?_, List.Nodup.filter _ ih⟩
    rcases List.mem_filter.mp hmem with ⟨-, hcond⟩
    simp at hcond

theorem mem_claves : ∀ (l : List Palabra) (t : Palabra), t ∈ claves l ↔ t ∈ l := by
  intro l
  induction l with
  | nil => intro t; simp [claves]
  | cons p rest ih =>
    intro t
    by_cases htp : t = p
    · subst htp
      simp [claves]
    · simp [claves, List.mem_filter, htp, ih]

theorem indiceDe_cons_self (p : Palabra) (rest : List Palabra) :
    indiceDe (p :: rest) p = 0 := by
  simp [indiceDe]

theorem indiceDe_cons_ne (p : Palabra) (rest : List Palabra) {u : Palabra}
    (h : ¬p = u) : indiceDe (p :: rest) u = indiceDe rest u + 1 := by
  simp [indiceDe, h]

theorem claves_pairwise_indiceDe :
    ∀ l : List Palabra,
      (claves l).Pairwise (fun u t => indiceDe l u < indiceDe l t) := by
  intro l
  induction l with
  | nil => simp [claves]
  | cons p rest ih =>
    simp only [claves]
    rw [List.pairwise_cons]
    constructor
    · intro u hu
      rcases List.mem_filter.mp hu with ⟨-, hcond⟩
      have hup : u ≠ p := by simpa using hcond
      rw [indiceDe_cons_self, indiceDe_cons_ne _ _ (fun h => hup h.symm)]
      exact Nat.succ_pos _
    · have hpw : (List.filter (fun q => decide (q ≠ p)) (claves rest)).Pairwise
          (fun u t => indiceDe rest u < indiceDe rest t) :=
        ih.sublist (List.filter_sublist _)
      refine hpw.imp_of_mem ?_
      intro a b ha hb hab
      have hap : a ≠ p := by simpa using (List.mem_filter.mp ha).2
      have hbp : b ≠ p := by simpa using (List.mem_filter.mp hb).2
      rw [indiceDe_cons_ne _ _ (fun h => hap h.symm),
        indiceDe_cons_ne _ _ (fun h => hbp h.symm)]
      exact Nat.succ_lt_succ hab

theorem insertaDesc_perm (cnt : Palabra → Nat) (p : Palabra) :
    ∀ l : List Palabra, (insertaDesc cnt p l).Perm (p :: l) := by
  intro l
  induction l with
  | nil => exact List.Perm.refl _
  | cons q qs ih =>
    simp only [insertaDesc]
    by_cases h : cnt q ≤ cnt p
    · rw [if_pos h]
    · rw [if_neg h]
      exact (ih.cons q).trans (List.Perm.swap p q qs)

theorem ordenaDesc_perm (cnt : Palabra → Nat) :
    ∀ l : List Palabra, (ordenaDesc cnt l).Perm l := by
  intro l
  induction l with
  | nil => exact List.Perm.refl _
  | cons p rest ih =>
    exact (insertaDesc_perm cnt p _).trans (ih.cons p)

theorem insertaDesc_sorted (cnt : Palabra → Nat) (p : Palabra) :
    ∀ l : List Palabra, l.Pairwise (fun a b => cnt b ≤ cnt a) →
      (insertaDesc cnt p l).Pairwise (fun a b => cnt b ≤ cnt a) := by
  intro l
  induction l with
  | nil => intro _; simp [insertaDesc]
  | cons q qs ih =>
    intro h
    rw [List.pairwise_cons] at h
    obtain ⟨hq, hqs⟩ := h
    simp only [insertaDesc]
    by_cases hc : cnt q ≤ cnt p
    · rw [if_pos hc, List.pairwise_cons]
      constructor
      · intro b hb
        rcases List.mem_cons.mp hb with h1 | h1
        · exact h1 ▸ hc
        · exact le_trans (hq b h1) hc
      · exact List.pairwise_cons.mpr ⟨hq, hqs⟩
    · rw [if_neg hc, List.pairwise_cons]
      constructor
      · intro b hb
        rcases List.mem_cons.mp ((insertaDesc_perm cnt p qs).mem_iff.mp hb)
          with h1 | h1
        · subst h1
          omega
        · exact hq b h1
      · exact ih hqs

theorem ordenaDesc_sorted (cnt : Palabra → Nat) :
    ∀ l : List Palabra,
      (ordenaDesc cnt l).Pairwise (fun a b => cnt b ≤ cnt a) := by
  intro l
  induction l with
  | nil => simp [ordenaDesc]
  | cons p rest ih => exact insertaDesc_sorted cnt p _ ih

theorem insertaDesc_prec (cnt idx : Palabra → Nat) (p : Palabra) :
    ∀ S : List Palabra, S.Pairwise (prec cnt idx) →
      S.Pairwise (fun a b => cnt b ≤ cnt a) →
      (∀ u ∈ S, idx p < idx u) →
      (insertaDesc cnt p S).Pairwise (prec cnt idx) := by
  intro S
  induction S with
  | nil => intro _ _ _; simp [insertaDesc]
  | cons q qs ih =>
    intro hprec hsort hidx
    rw [List.pairwise_cons] at hprec hsort
    obtain ⟨hpq, hqs⟩ := hprec
    obtain ⟨hsq, hsqs⟩ := hsort
    simp only [insertaDesc]
    by_cases hc : cnt q ≤ cnt p
    · rw [if_pos hc, List.pairwise_cons]
      refine ⟨?_, List.pairwise_cons.mpr ⟨hpq, hqs⟩⟩
      intro v hv
      rcases List.mem_cons.mp hv with h1 | h1
      · subst h1
        by_cases hlt : cnt v < cnt p
        · exact Or.inl hlt
        · exact Or.inr ⟨by omega, hidx v (List.mem_cons_self _ _)⟩
      · have hvq : cnt v ≤ cnt q := hsq v h1
        by_cases hlt : cnt v < cnt p
        · exact Or.inl hlt
        · exact Or.inr ⟨by omega, hidx v (List.mem_cons_of_mem _ h1)⟩
    · rw [if_neg hc, List.pairwise_cons]
      refine ⟨?_, ih hqs hsqs (fun u hu => hidx u (List.mem_cons_of_mem _ hu))⟩
      intro v hv
      rcases List.mem_cons.mp ((insertaDesc_perm cnt p qs).mem_iff.mp hv)
        with h1 | h1
      · subst h1
        exact Or.inl (by omega)
      · exact hpq v h1

theorem ordenaDesc_prec (cnt idx : Palabra → Nat) :
    ∀ l : List Palabra, l.Pairwise (fun u t => idx u < idx t) →
      (ordenaDesc cnt l).Pairwise (prec cnt idx) := by
  intro l
  induction l with
  | nil => intro _; simp [ordenaDesc]
  | cons p rest ih =>
    intro h
    rw [List.pairwise_cons] at h
    obtain ⟨hp, hrest⟩ := h
    exact insertaDesc_prec cnt idx p _ (ih hrest) (ordenaDesc_sorted cnt rest)
      (fun u hu => hp u ((ordenaDesc_perm cnt rest).mem_iff.mp hu))

/-! ### Membership in the first `n` of a strictly sorted list -/

theorem mem_take_pairwise (Rb : Palabra → Palabra → Bool)
    (hasym : ∀ a b, Rb a b = true → Rb b a = false) :
    ∀ (S : List Palabra) (n : Nat) (t : Palabra),
      S.Pairwise (fun a b => Rb a b = true) →
      (t ∈ S.take n ↔ t ∈ S ∧ S.countP (fun u => Rb u t) < n) := by
  intro S
  induction S with
  | nil => intro n t _; simp
  | cons s S2 ih =>
    intro n t hpw
    rw [List.pairwise_cons] at hpw
    obtain ⟨hs, hS2⟩ := hpw
    cases n with
    | zero => simp
    | succ m =>
      rw [List.take_succ_cons]
      by_cases hts : t = s
      · subst hts
        have hRtt : Rb t t = false := by
          cases hR : Rb t t
          · rfl
          · have hcontra := hasym t t hR
            rw [hR] at hcontra
            simp at hcontra
        have hcount : S2.countP (fun u => Rb u t) = 0 :=
          List.countP_eq_zero.mpr (fun a ha => by
            simp [hasym t a (hs a ha)])
        simp [List.countP_cons, hcount, hRtt]
      · constructor
        · intro hmem
          rcases List.mem_cons.mp hmem with h1 | h1
          · exact absurd h1 hts
          · have hin := (ih m t hS2).mp h1
            refine ⟨List.mem_cons_of_mem _ hin.1, ?_⟩
            have hRst : Rb s t = true := hs t hin.1
            rw [List.countP_cons]
            simp only [hRst, if_true]
            omega
        · rintro ⟨hmem, hcnt⟩
          rcases List.mem_cons.mp hmem with h1 | h1
          · exact absurd h1 hts
          · refine List.mem_cons_of_mem _ ((ih m t hS2).mpr ⟨h1, ?_⟩)
            have hRst : Rb s t = true := hs t h1
            rw [List.countP_cons] at hcnt
            simp only [hRst, if_true] at hcnt
            omega

theorem mem_most_common (palabras : List Palabra) (n : Int) (t : Palabra) :
    t ∈ most_common palabras n ↔ seleccionada palabras n t := by
  unfold most_common seleccionada rango
  have hpw : (ordenaDesc (fun p => palabras.count p) (claves palabras)).Pairwise
      (fun a b => precedeB palabras a b = true) := by
    have h0 := ordenaDesc_prec (fun p => palabras.count p)
      (fun p => indiceDe palabras p) (claves palabras)
      (claves_pairwise_indiceDe palabras)
    exact h0.imp (fun hab => (precedeB_iff _ _ _).mpr hab)
  rw [mem_take_pairwise (precedeB palabras)
    (fun a b h => precedeB_asymm palabras h) _ _ _ hpw]
  rw [(ordenaDesc_perm _ _).mem_iff, mem_claves,
    (ordenaDesc_perm (fun p => palabras.count p) (claves palabras)).countP_eq]

theorem most_common_all (palabras : List Palabra) (n : Int)
    (h : (claves palabras).length ≤ n.toNat) :
    ∀ t, t ∈ most_common palabras n ↔ t ∈ palabras := by
  intro t
  unfold most_common
  rw [List.take_of_length_le (by rw [(ordenaDesc_perm _ _).length_eq]; exact h)]
  rw [(ordenaDesc_perm _ _).mem_iff, mem_claves]

/-! ### The claims -/

/-- Claim C1: the spec says a lookup whose normalization yields no tokens
returns the empty set and does not fail, but the source evaluates
`normalizar_texto(palabra)[0]`, which raises `IndexError` (modelled as
`none`) whenever the normalization is empty.  This theorem exhibits the
failure for every such input. -/
theorem buscar_palabra_simple_falla_sin_tokens (palabra : Palabra)
    (indice : Indice) (h : normalizar_texto palabra = []) :
    buscar_palabra_simple palabra indice = (none, indice) := by
  simp only [buscar_palabra_simple, h]

/-- Witness: the stop word `"el"` normalizes to no tokens, and the lookup
raises (returns `none`) on the empty index. -/
theorem buscar_palabra_simple_falla_sin_tokens_witness :
    normalizar_texto (cadena "el") = [] ∧
      buscar_palabra_simple (cadena "el") [] = (none, []) :=
  ⟨by decide, buscar_palabra_simple_falla_sin_tokens _ _ (by decide)⟩

/-- Claim C2, counterexample: on the spec's own two-document example the
statistics are not `(termCount 4, documentCount 2, average 0.5)`; the code
computes `(5, 2, 6/5)`. -/
theorem estadisticas_ejemplo_counterexample :
    ¬calcula_estadisticas_indice indiceEjemplo = (4, 2, (1 : ℚ) / 2) := by
  have h : calcula_estadisticas_indice indiceEjemplo =
      (5, 2, ((6 : Nat) : ℚ) / ((5 : Nat) : ℚ)) := rfl
  rw [h]
  simp

/-- Claim C2, amended: the three queries behave as the spec's example says,
and the statistics are `(5, 2, 6/5)` — the five distinct indexed tokens are
gato, come, pescado, perro, carne, with six postings in total. -/
theorem ejemplo_extremo_a_extremo :
    (buscar_palabras_and (cadena "come") indiceEjemplo).1 =
        some {cadena "url1", cadena "url2"} ∧
      (buscar_palabras_and (cadena "gato carne") indiceEjemplo).1 = some ∅ ∧
      (buscar_palabras_or (cadena "gato carne") indiceEjemplo).1 =
        some {cadena "url1", cadena "url2"} ∧
      calcula_estadisticas_indice indiceEjemplo = (5, 2, (6 : ℚ) / 5) := by
  refine ⟨?_, rfl, rfl, ?_⟩
  · have h1 : (buscar_palabras_and (cadena "come") indiceEjemplo).1 =
        some ({cadena "url2", cadena "url1"} : Finset Palabra) := rfl
    rw [h1, Finset.pair_comm]
  · have h : calcula_estadisticas_indice indiceEjemplo =
        (5, 2, ((6 : Nat) : ℚ) / ((5 : Nat) : ℚ)) := rfl
    rw [h]
    norm_num

/-- Claim C3: `procesar_url_en_indice_top_n` records `url` for exactly the
tokens selected as the up-to-`top_n` most frequent distinct tokens of the
normalized text, ties broken by first appearance (`seleccionada`), leaving
every other membership unchanged; likewise for key creation. -/
theorem top_n_inserta_exactamente_seleccionadas (url texto : Palabra)
    (indice : Indice) (top_n : Int) (t : Palabra) :
    (urlEnIndice (procesar_url_en_indice_top_n url texto indice top_n) t url ↔
      seleccionada (normalizar_texto texto) top_n t ∨ urlEnIndice indice t url) ∧
    (tieneClave (procesar_url_en_indice_top_n url texto indice top_n) t = true ↔
      seleccionada (normalizar_texto texto) top_n t ∨
        tieneClave indice t = true) := by
  unfold procesar_url_en_indice_top_n
  have hb := busca_foldl url (most_common (normalizar_texto texto) top_n) indice t
  by_cases htL : t ∈ most_common (normalizar_texto texto) top_n
  · rw [if_pos htL] at hb
    have hsel : seleccionada (normalizar_texto texto) top_n t :=
      (mem_most_common _ _ _).mp htL
    constructor
    · constructor
      · intro _
        exact Or.inl hsel
      · intro _
        exact ⟨_, hb, Finset.mem_insert_self _ _⟩
    · constructor
      · intro _
        exact Or.inl hsel
      · intro _
        rw [tieneClave, hb]
        rfl
  · rw [if_neg htL] at hb
    have hnosel : ¬seleccionada (normalizar_texto texto) top_n t :=
      fun hsel => htL ((mem_most_common _ _ _).mpr hsel)
    constructor
    · unfold urlEnIndice
      rw [hb]
      exact (or_iff_right hnosel).symm
    · rw [tieneClave, tieneClave, hb]
      exact (or_iff_right hnosel).symm

/-- Claim C4: when `top_n` is at least the number of distinct tokens of the
normalized text, the capped variant produces the same final dictionary as
the unrestricted one (`indiceEquivalente` is Python dict equality: same
keys, same posting sets). -/
theorem top_n_equivale_sin_limite (url texto : Palabra) (indice : Indice)
    (top_n : Int)
    (h : ((claves (normalizar_texto texto)).length : Int) ≤ top_n) :
    indiceEquivalente (procesar_url_en_indice_top_n url texto indice top_n)
      (procesar_url_en_indice url texto indice) := by
  intro t
  unfold procesar_url_en_indice_top_n procesar_url_en_indice
  rw [busca_foldl, busca_foldl]
  have hiff := most_common_all (normalizar_texto texto) top_n (by omega) t
  by_cases hmem : t ∈ normalizar_texto texto
  · rw [if_pos (hiff.mpr hmem), if_pos hmem]
  · rw [if_neg (fun hx => hmem (hiff.mp hx)), if_neg hmem]

/-- Witness for C4 at a concrete document with two distinct tokens and
`top_n = 5`. -/
theorem top_n_equivale_sin_limite_witness :
    ((claves (normalizar_texto (cadena "perro gato gato"))).length : Int) ≤ 5 ∧
      indiceEquivalente
        (procesar_url_en_indice_top_n (cadena "u") (cadena "perro gato gato") [] 5)
        (procesar_url_en_indice (cadena "u") (cadena "perro gato gato") []) :=
  ⟨by decide, top_n_equivale_sin_limite _ _ _ _ (by decide)⟩

/-- Claim C5: after indexing a document, the document's identifier belongs
to the posting set of every token of the normalized text. -/
theorem procesar_contiene_url (url texto : Palabra) (indice : Indice)
    (t : Palabra) (h : t ∈ normalizar_texto texto) :
    urlEnIndice (procesar_url_en_indice url texto indice) t url := by
  unfold procesar_url_en_indice
  refine ⟨insert url ((busca indice t).getD ∅), ?_, Finset.mem_insert_self _ _⟩
  rw [busca_foldl, if_pos h]

/-- Witness for C5 on the spec's `"¡Hola, Mundo!"` example. -/
theorem procesar_contiene_url_witness :
    cadena "hola" ∈ normalizar_texto (cadena "¡Hola, Mundo!") ∧
      urlEnIndice
        (procesar_url_en_indice (cadena "u") (cadena "¡Hola, Mundo!") [])
        (cadena "hola") (cadena "u") :=
  ⟨by decide, procesar_contiene_url _ _ _ _ (by decide)⟩

/-- Claim C6: indexing the same `(url, texto)` pair twice produces exactly
the same dictionary as indexing it once. -/
theorem procesar_idempotente (url texto : Palabra) (indice : Indice) :
    procesar_url_en_indice url texto (procesar_url_en_indice url texto indice) =
      procesar_url_en_indice url texto indice := by
  unfold procesar_url_en_indice
  exact foldl_procesaPaso_id url _ _
    (fun p hp => despuesDe_foldl url _ indice p (Or.inl hp))

theorem buscar_palabras_and_cons (frase : Palabra) (indice : Indice)
    (w : Palabra) (rest : List Palabra)
    (hn : normalizar_texto frase = w :: rest) :
    buscar_palabras_and frase indice =
      match buscar_palabra_simple w indice with
      | (none, ind2) => (none, ind2)
      | (some r0, ind2) => bucleAnd r0 ind2 rest := by
  unfold buscar_palabras_and
  rw [hn]

/-- Claim C7: for every phrase and index both boolean queries succeed, and
the AND result is a subset of the OR result. -/
theorem and_subconjunto_or (frase : Palabra) (indice : Indice) :
    ∃ sA sO, (buscar_palabras_and frase indice).1 = some sA ∧
      (buscar_palabras_or frase indice).1 = some sO ∧ sA ⊆ sO := by
  rcases hn : normalizar_texto frase with _ | ⟨w, rest⟩
  · refine ⟨∅, ∅, ?_, ?_, subset_rfl⟩
    · unfold buscar_palabras_and
      rw [hn]
    · unfold buscar_palabras_or
      rw [hn]
      rfl
  · have htokens := normalizar_esToken frase
    rw [hn] at htokens
    have hw : esToken w := htokens w (List.mem_cons_self _ _)
    have hrest : ∀ p ∈ rest, esToken p :=
      fun p hp => htokens p (List.mem_cons_of_mem _ hp)
    rcases bucleAnd_some indice rest hrest ((busca indice w).getD ∅)
      with ⟨sA, hA, hAsub⟩
    refine ⟨sA,
      (w :: rest).foldl (fun a p => a ∪ (busca indice p).getD ∅) ∅, ?_, ?_, ?_⟩
    · rw [buscar_palabras_and_cons frase indice w rest hn,
        buscar_simple_token hw indice]
      show (bucleAnd ((busca indice w).getD ∅) indice rest).1 = some sA
      rw [hA]
    · unfold buscar_palabras_or
      rw [hn, bucleOr_eq indice (w :: rest) htokens ∅]
    · have h1 : sA ⊆ ∅ ∪ (busca indice w).getD ∅ := by
        rw [Finset.empty_union]
        exact hAsub
      have h2 := subset_foldl_union (fun p => (busca indice p).getD ∅) rest
        (∅ ∪ (busca indice w).getD ∅)
      rw [List.foldl_cons]
      exact subset_trans h1 h2

/-- Claim C8: every token produced by the normalizer is a nonempty
lowercase alphabetic word outside the stop-word set (`esToken`). -/
theorem normalizar_texto_tokens_validos (texto t : Palabra)
    (h : t ∈ normalizar_texto texto) : esToken t :=
  normalizar_esToken texto t h

/-- Witness for C8 on the spec's `"¡Hola, Mundo!"` example. -/
theorem normalizar_texto_tokens_validos_witness :
    cadena "hola" ∈ normalizar_texto (cadena "¡Hola, Mundo!") ∧
      esToken (cadena "hola") :=
  ⟨by decide, normalizar_texto_tokens_validos (cadena "¡Hola, Mundo!")
    (cadena "hola") (by decide)⟩

/-- Claim C9: in every index reachable from the empty dictionary by the two
indexing operations, every stored posting set is nonempty and lists each
identifier at most once. -/
theorem alcanzable_invariante (indice : Indice) (h : Alcanzable indice) :
    invarianteIndice indice := by
  induction h with
  | vacio => intro kv hkv; simp at hkv
  | paso url texto ind hprev ih => exact invariante_foldl url _ ind ih
  | pasoTopN url texto ind top_n hprev ih => exact invariante_foldl url _ ind ih

/-- Witness for C9: the invariant holds of the index reached by indexing
one document. -/
theorem alcanzable_invariante_witness :
    invarianteIndice (procesar_url_en_indice (cadena "u") (cadena "hola") []) :=
  alcanzable_invariante _ (Alcanzable.paso _ _ _ Alcanzable.vacio)

/-- Claim C10: the three query operations return the index argument
unchanged — no key is added or removed and no posting set is modified. -/
theorem consultas_preservan_indice (frase : Palabra) (indice : Indice) :
    (buscar_palabra_simple frase indice).2 = indice ∧
      (buscar_palabras_or frase indice).2 = indice ∧
      (buscar_palabras_and frase indice).2 = indice := by
  refine ⟨buscar_palabra_simple_snd frase indice, ?_, ?_⟩
  · unfold buscar_palabras_or
    exact bucleOr_snd _ _ _
  · rcases hn : normalizar_texto frase with _ | ⟨w, rest⟩
    · unfold buscar_palabras_and
      rw [hn]
    · rw [buscar_palabras_and_cons frase indice w rest hn]
      have hsnd := buscar_palabra_simple_snd w indice
      rcases hps : buscar_palabra_simple w indice with ⟨o, ind2⟩
      rw [hps] at hsnd
      cases o with
      | none => exact hsnd
      | some r0 =>
        show (bucleAnd r0 ind2 rest).2 = indice
        rw [bucleAnd_snd]
        exact hsnd
